import Mathlib

set_option maxHeartbeats 1000000
set_option linter.unusedVariables false

/-!
Verification of the URFT UDP reliable-file-transfer endpoints: a shallow
embedding of the sender state machine (urft_client.py) and the receiver
state machine (urft_server.py), together with proofs of the protocol
properties stated in the specification: wire-framing round trips, the
sliding-window invariants of the sender, the in-order write invariant of
the receiver, duplicate idempotence, total-count sanitization, the
termination handshake and the header-handshake retry accounting.
Bytes are lists of naturals; Python floats in branch conditions are
modelled exactly over ℚ or by equivalent integer comparisons.
-/

/-- Big-endian 4-byte encoding of an unsigned 32-bit integer, as produced by
struct.pack with format !I. -/
def toBE4 (n : ℕ) : List ℕ :=
  [n / 2 ^ 24 % 256, n / 2 ^ 16 % 256, n / 2 ^ 8 % 256, n % 256]

/-- Big-endian decoding of a byte list, as struct.unpack with format !I. -/
def fromBE4 (l : List ℕ) : ℕ :=
  l.foldl (fun acc b => acc * 256 + b) 0

/-- Data-packet framing used by the sender (urft_client.py line 162):
seq as u32 big-endian, then total as u32 big-endian, then the payload. -/
def encodeData (seq total : ℕ) (payload : List ℕ) : List ℕ :=
  toBE4 seq ++ toBE4 total ++ payload

/-- Data-packet parsing on the receiver (urft_server.py lines 99-106):
fails when the datagram is shorter than the 8-byte header. -/
def decodeData (data : List ℕ) : Option (ℕ × ℕ × List ℕ) :=
  if data.length < 8 then none
  else some (fromBE4 (data.take 4), fromBE4 ((data.drop 4).take 4), data.drop 8)

/-- Splitting the file bytes into successive chunks of at most 1024 bytes
(urft_client.py lines 109-114). -/
def chunksOf (l : List ℕ) : List (List ℕ) :=
  if h : l = [] then []
  else l.take 1024 :: chunksOf (l.drop 1024)
termination_by l.length
decreasing_by
  have h1 : l.length ≠ 0 := fun hn => h (List.length_eq_zero.mp hn)
  simp only [List.length_drop]
  omega

/-- The size-derived expected packet count on the receiver
(urft_server.py line 68): ceiling division of the file size by 1024. -/
def expectedPackets (size : ℕ) : ℕ := (size + 1023) / 1024

/-- The sender's termination datagram (urft_client.py line 260):
a data packet with seq = total = N and empty payload. -/
def termPacket (N : ℕ) : List ℕ := encodeData N N []

/-- The sender's base retransmission timeout in seconds
(TIMEOUT = 0.2, urft_client.py line 12). -/
def TIMEOUTQ : ℚ := 1 / 5

/-- The remaining-time scaling the sender applies to the per-packet dynamic
timeout (urft_client.py lines 233-244), as a function of the remaining-time
percentage, the progress percentage and the backoff-derived timeout. The
branch on remaining < 50 is tested before the branch on remaining < 25, and
the final-push branch overrides last. -/
def scaleTimeout (remaining progress dyn : ℚ) : ℚ :=
  let d1 :=
    if remaining < 50 then max (TIMEOUTQ * (2 / 10)) (dyn * (4 / 10))
    else if remaining < 25 then TIMEOUTQ * (15 / 100)
    else dyn
  if remaining < 20 ∧ 75 < progress then TIMEOUTQ * (1 / 10) else d1

/-- The remaining-time scaling policy exactly as the specification words it:
strongest match first, with the 25-percent tier tested before the
50-percent tier. Stated only to be compared with scaleTimeout. -/
def scaleTimeoutSpec (remaining progress dyn : ℚ) : ℚ :=
  if remaining < 20 ∧ 75 < progress then TIMEOUTQ * (1 / 10)
  else if remaining < 25 then TIMEOUTQ * (15 / 100)
  else if remaining < 50 then max (TIMEOUTQ * (2 / 10)) (dyn * (4 / 10))
  else dyn

/-- Receiver state in the streaming loop (urft_server.py lines 74-85):
the next expected sequence number, the set of sequence numbers already
received, the out-of-order buffer as an association list from sequence
number to payload, the ordered list of (seq, payload) writes made to the
output file, the discovered total packet count (0 while not yet set), and
the completion flag. -/
structure RecvSt where
  expected : ℕ
  delivered : Finset ℕ
  buffer : List (ℕ × List ℕ)
  writes : List (ℕ × List ℕ)
  total : ℕ
  complete : Bool
deriving DecidableEq

/-- Receiver decision on a hard socket reset from the peer
(urft_server.py line 217): complete iff total_packets > 0 and
expected_seq > 0.9 * total_packets, the float comparison expressed
exactly over the integers. -/
def resetComplete (total expected : ℕ) : Bool :=
  decide (0 < total ∧ 9 * total < 10 * expected)

/-- Receiver handling of a connection-reset socket error
(urft_server.py lines 212-220): finalize when most of the file arrived,
otherwise keep the state and continue. -/
def onReset (st : RecvSt) : RecvSt :=
  if resetComplete st.total st.expected then { st with complete := true } else st

/-- Lookup in the out-of-order buffer, as Python dict membership/access. -/
def alookup (k : ℕ) : List (ℕ × List ℕ) → Option (List ℕ)
  | [] => none
  | (k2, v) :: rest => if k2 = k then some v else alookup k rest

/-- Deletion of a key from the out-of-order buffer, as Python del. -/
def aerase (k : ℕ) : List (ℕ × List ℕ) → List (ℕ × List ℕ)
  | [] => []
  | (k2, v) :: rest => if k2 = k then rest else (k2, v) :: aerase k rest

/-- Assignment into the out-of-order buffer, as Python dict assignment. -/
def ainsert (k : ℕ) (v : List ℕ) (l : List (ℕ × List ℕ)) : List (ℕ × List ℕ) :=
  (k, v) :: aerase k l

theorem aerase_length_lt {k : ℕ} {v : List ℕ} :
    ∀ {l : List (ℕ × List ℕ)}, alookup k l = some v → (aerase k l).length < l.length
  | [], h => by simp [alookup] at h
  | (k2, w) :: rest, h => by
    by_cases hk : k2 = k
    · simpa [aerase, hk] using Nat.lt_succ_self rest.length
    · simp only [alookup, if_neg hk] at h
      simpa [aerase, hk] using Nat.succ_lt_succ (aerase_length_lt h)

/-- In-order drain of the out-of-order buffer (urft_server.py lines 163-168):
while the next expected sequence number is buffered, write its payload,
record it as delivered, remove it from the buffer and advance. Returns the
new expected sequence number, buffer, delivered set and write list. -/
def drain (e : ℕ) (buf : List (ℕ × List ℕ)) (dl : Finset ℕ) (ws : List (ℕ × List ℕ)) :
    ℕ × List (ℕ × List ℕ) × Finset ℕ × List (ℕ × List ℕ) :=
  if h : (alookup e buf).isSome then
    drain (e + 1) (aerase e buf) (insert e dl) (ws ++ [(e, (alookup e buf).getD [])])
  else (e, buf, dl, ws)
termination_by buf.length
decreasing_by
  obtain ⟨v, hv⟩ := Option.isSome_iff_exists.mp h
  exact aerase_length_lt hv

/-- Sanitization and discovery of the total packet count for one data packet
(urft_server.py lines 108-129), given the size-derived expectation E, the
currently bound total_packets and the packet's total field. Returns none
when the packet is dropped, otherwise the sanitized packet total together
with the updated total_packets. The replacement test abs(pt - E) > E * 0.5
is expressed exactly as E < 2 * |pt - E|. -/
def processTotal (E tp pt0 : ℕ) : Option (ℕ × ℕ) :=
  if (100000 < pt0 ∨ pt0 = 0) ∧ E = 0 then none
  else
    let pt := if 100000 < pt0 ∨ pt0 = 0 then E else pt0
    let tp2 :=
      if tp = 0 then
        (if E < 2 * ((pt : ℤ) - (E : ℤ)).natAbs ∧ 0 < E ∧ E < 100000 then E else pt)
      else tp
    some (pt, tp2)

/-- Number of termination-ACK copies the receiver emits
(urft_server.py line 136). -/
def receiverTermRepeat (high : Bool) : ℕ := if high then 15 else 5

/-- Delay in milliseconds between successive termination-ACK copies on the
receiver (urft_server.py line 137). -/
def receiverTermDelayMs (high : Bool) : ℕ := if high then 50 else 10

/-- Receiver processing of one decoded data packet in the streaming loop
(urft_server.py lines 104-188): total sanitization, termination detection,
invalid-sequence drop, duplicate re-ACK, in-order write with buffer drain,
out-of-order buffering, and the trailing ACK. Returns the new state and
the list of ACK values sent. -/
def recvCore (E : ℕ) (high : Bool) (st : RecvSt) (seq pt0 : ℕ) (chunk : List ℕ) :
    RecvSt × List ℕ :=
  match processTotal E st.total pt0 with
  | none => (st, [])
  | some (pt, total) =>
    if seq = total ∧ pt = total then
      ({ st with total := total, complete := true },
        List.replicate (receiverTermRepeat high) total)
    else if total ≤ seq then ({ st with total := total }, [])
    else if seq ∈ st.delivered then ({ st with total := total }, [seq])
    else if seq = st.expected then
      let r := drain (st.expected + 1) st.buffer (insert seq st.delivered)
        (st.writes ++ [(seq, chunk)])
      ({ expected := r.1,
         delivered := r.2.2.1,
         buffer := r.2.1,
         writes := r.2.2.2,
         total := total,
         complete := st.complete }, [seq])
    else if st.expected < seq then
      ({ st with
          buffer := ainsert seq chunk st.buffer,
          delivered := insert seq st.delivered,
          total := total }, [seq])
    else ({ st with total := total }, [seq])

/-- Receiver handling of one raw datagram in the streaming loop: datagrams
shorter than the 8-byte header are dropped, otherwise the header is parsed
big-endian and the packet is processed (urft_server.py lines 99-106). -/
def recvDgram (E : ℕ) (high : Bool) (st : RecvSt) (data : List ℕ) : RecvSt × List ℕ :=
  if data.length < 8 then (st, [])
  else recvCore E high st (fromBE4 (data.take 4)) (fromBE4 ((data.drop 4).take 4))
    (data.drop 8)

/-- Session of the receiver with a fixed sender whose payload for chunk i is
pay i: the reachable streaming states, starting from the initial state and
stepping by any data datagram the sender could emit, in any order, with any
duplication, for any in-session high-rtt flag. -/
inductive RReach (E : ℕ) (pay : ℕ → List ℕ) : RecvSt → Prop where
  | init : RReach E pay ⟨0, ∅, [], [], 0, false⟩
  | step (st : RecvSt) (high : Bool) (seq total : ℕ) (hs : seq < 2 ^ 32)
      (ht : total < 2 ^ 32) (h : RReach E pay st) :
      RReach E pay (recvDgram E high st (encodeData seq total (pay seq))).1

/-- Sliding-window sender state (urft_client.py lines 102-105): the first
unacknowledged sequence number, the next sequence number to send, and the
set of in-flight sequence numbers (the keys of the window map). -/
structure SenderSt where
  base : ℕ
  next : ℕ
  window : Finset ℕ
deriving DecidableEq

/-- The sender's per-iteration send loop (urft_client.py lines 160-166):
send new packets while the window is below the effective window size, there
are unsent chunks, and fewer than burst sends happened this iteration. -/
def sendBurst (win N : ℕ) : ℕ → SenderSt → SenderSt
  | 0, st => st
  | fuel + 1, st =>
    if st.window.card < win ∧ st.next < N then
      sendBurst win N fuel ⟨st.base, st.next + 1, insert st.next st.window⟩
    else st

/-- The sender's base advance after an ACK removes a window entry
(urft_client.py lines 179-180): advance while the base is below N and not
in the window. -/
def advanceBase (N : ℕ) (w : Finset ℕ) (b : ℕ) : ℕ :=
  if b < N ∧ b ∉ w then advanceBase N w (b + 1) else b
termination_by N - b
decreasing_by omega

/-- The sender's opportunistic extra sends inside the ACK branch
(urft_client.py lines 186-192): up to k iterations, each sending the next
chunk when one remains. -/
def extraSend (N : ℕ) : ℕ → SenderSt → SenderSt
  | 0, st => st
  | k + 1, st =>
    if st.next < N then extraSend N k ⟨st.base, st.next + 1, insert st.next st.window⟩
    else extraSend N k st

/-- The sender's handling of a received ACK (urft_client.py lines 174-192):
if the ACK is for a window entry, delete it, advance the base, and when time
is low and the window is under half full, opportunistically send up to three
more packets. Otherwise nothing changes. -/
def ackEvent (win N : ℕ) (timeLow : Bool) (a : ℕ) (st : SenderSt) : SenderSt :=
  if a ∈ st.window then
    if timeLow ∧ (st.window.erase a).card < win / 2 then
      extraSend N (min 3 (win - (st.window.erase a).card))
        ⟨advanceBase N (st.window.erase a) st.base, st.next, st.window.erase a⟩
    else ⟨advanceBase N (st.window.erase a) st.base, st.next, st.window.erase a⟩
  else st

/-- One iteration of the sender's streaming loop (urft_client.py
lines 120-257): the send burst, then either an ACK event or a socket
timeout; retransmissions on timeout change no window keys. -/
def senderIter (win burst N : ℕ) (timeLow : Bool) (ev : Option ℕ) (st : SenderSt) :
    SenderSt :=
  match ev with
  | some a => ackEvent win N timeLow a (sendBurst win N burst st)
  | none => sendBurst win N burst st

/-- Reachable states of the sender's streaming loop for a given effective
window size, burst cap and total chunk count. -/
inductive SReach (win burst N : ℕ) : SenderSt → Prop where
  | init : SReach win burst N ⟨0, 0, ∅⟩
  | step (st : SenderSt) (timeLow : Bool) (ev : Option ℕ) (h : SReach win burst N st) :
      SReach win burst N (senderIter win burst N timeLow ev st)

/-- The sliding-window invariant of the sender: base ≤ next ≤ N and every
in-flight sequence number lies in [base, next). -/
def SInv (N : ℕ) (st : SenderSt) : Prop :=
  st.base ≤ st.next ∧ st.next ≤ N ∧ ∀ s ∈ st.window, st.base ≤ s ∧ s < st.next

/-- The receiver's streaming invariant: the write list is exactly the
payloads of sequence numbers 0..expected-1 in order; buffered entries hold
the sender payload for a key strictly between expected and total; buffer
keys are distinct; while no total is bound nothing has been consumed; and
expected never exceeds a bound total. -/
def RInv (pay : ℕ → List ℕ) (st : RecvSt) : Prop :=
  st.writes = (List.range st.expected).map (fun i => (i, pay i)) ∧
  (∀ kv ∈ st.buffer, kv.2 = pay kv.1 ∧ st.expected < kv.1 ∧ kv.1 < st.total) ∧
  (st.buffer.map Prod.fst).Nodup ∧
  (st.total = 0 → st.expected = 0 ∧ st.buffer = []) ∧
  (0 < st.total → st.expected ≤ st.total)

/-- Event observed by the sender while waiting for the header ACK. -/
inductive HdrEvent where
  | timeout : HdrEvent
  | dgram : String → HdrEvent
deriving DecidableEq

/-- The sender's header handshake loop (urft_client.py lines 48-67): each
event is either a socket timeout or a received datagram; a datagram equal to
HEADER_ACK succeeds, any other event increments the one retry counter, and
the transfer fails once the counter reaches 25. Returns none when the event
list runs out while still waiting. -/
def headerHandshake : ℕ → List HdrEvent → Option Bool
  | retries, evs =>
    if 25 ≤ retries then some false
    else
      match evs with
      | [] => none
      | HdrEvent.timeout :: rest => headerHandshake (retries + 1) rest
      | HdrEvent.dgram s :: rest =>
        if s = "HEADER_ACK" then some true else headerHandshake (retries + 1) rest

theorem fromBE4_toBE4 {n : ℕ} (h : n < 2 ^ 32) : fromBE4 (toBE4 n) = n := by
  simp only [fromBE4, toBE4, List.foldl]
  omega

theorem encodeData_eq (s N : ℕ) (p : List ℕ) :
    encodeData s N p = toBE4 s ++ (toBE4 N ++ p) := by
  simp [encodeData]

theorem encodeData_length (s N : ℕ) (p : List ℕ) :
    (encodeData s N p).length = 8 + p.length := by
  simp [encodeData, toBE4]
  omega

theorem encodeData_take4 (s N : ℕ) (p : List ℕ) :
    (encodeData s N p).take 4 = toBE4 s := by
  rw [encodeData_eq]
  exact List.take_left' rfl

theorem encodeData_drop4_take4 (s N : ℕ) (p : List ℕ) :
    ((encodeData s N p).drop 4).take 4 = toBE4 N := by
  rw [encodeData_eq, List.drop_left' (by rfl : (toBE4 s).length = 4)]
  exact List.take_left' rfl

theorem encodeData_drop8 (s N : ℕ) (p : List ℕ) :
    (encodeData s N p).drop 8 = p := by
  have h : ((encodeData s N p).drop 4).drop 4 = (encodeData s N p).drop 8 := by
    rw [List.drop_drop]
  rw [← h, encodeData_eq, List.drop_left' (by rfl : (toBE4 s).length = 4)]
  exact List.drop_left' rfl

/-- Claim C6: for every valid triple (s, N, p) with s and N unsigned 32-bit
integers and p a payload of at most 1024 bytes, decoding the encoded data
packet returns the same triple. -/
theorem data_roundtrip (s N : ℕ) (p : List ℕ) (hs : s < 2 ^ 32) (hN : N < 2 ^ 32)
    (hp : p.length ≤ 1024) :
    decodeData (encodeData s N p) = some (s, N, p) := by
  have hlen : (encodeData s N p).length = 8 + p.length := encodeData_length s N p
  rw [decodeData, if_neg (by omega), encodeData_take4, encodeData_drop4_take4,
    encodeData_drop8, fromBE4_toBE4 hs, fromBE4_toBE4 hN]

theorem data_roundtrip_witness :
    1 < 2 ^ 32 ∧ 2 < 2 ^ 32 ∧ ([5] : List ℕ).length ≤ 1024 ∧
      decodeData (encodeData 1 2 [5]) = some (1, 2, [5]) :=
  ⟨by norm_num, by norm_num, by norm_num,
    data_roundtrip 1 2 [5] (by norm_num) (by norm_num) (by norm_num)⟩

theorem headerHandshake_cons_dgram {s : String} (hs : s ≠ "HEADER_ACK") (r : ℕ)
    (rest : List HdrEvent) :
    headerHandshake r (HdrEvent.dgram s :: rest) =
      if 25 ≤ r then some false else headerHandshake (r + 1) rest := by
  rw [headerHandshake]
  simp [hs]

theorem headerHandshake_cons_timeout (r : ℕ) (rest : List HdrEvent) :
    headerHandshake r (HdrEvent.timeout :: rest) =
      if 25 ≤ r then some false else headerHandshake (r + 1) rest := by
  rw [headerHandshake]

theorem headerHandshake_replicate_bad {s : String} (hs : s ≠ "HEADER_ACK") :
    ∀ (k r : ℕ) (rest : List HdrEvent), 25 ≤ r + k →
      headerHandshake r (List.replicate k (HdrEvent.dgram s) ++ rest) = some false := by
  intro k
  induction k with
  | zero =>
    intro r rest h
    have hr : 25 ≤ r := by omega
    simp [List.replicate, headerHandshake.eq_def, hr]
  | succ k ih =>
    intro r rest h
    rw [List.replicate_succ, List.cons_append, headerHandshake_cons_dgram hs]
    by_cases hr : 25 ≤ r
    · rw [if_pos hr]
    · rw [if_neg hr]
      exact ih (r + 1) rest (by omega)

/-- Claim C10: during the header handshake, a received datagram that is not
the literal HEADER_ACK behaves exactly like a socket timeout on the single
retry counter, and 25 such datagrams make the handshake fail even though no
socket timeout ever occurred. -/
theorem header_nonack_counts_retries (s : String) (hs : s ≠ "HEADER_ACK") :
    (∀ (r : ℕ) (rest : List HdrEvent),
        headerHandshake r (HdrEvent.dgram s :: rest) =
          headerHandshake r (HdrEvent.timeout :: rest)) ∧
    (∀ rest : List HdrEvent,
        headerHandshake 0 (List.replicate 25 (HdrEvent.dgram s) ++ rest) = some false) := by
  constructor
  · intro r rest
    rw [headerHandshake_cons_dgram hs, headerHandshake_cons_timeout]
  · intro rest
    exact headerHandshake_replicate_bad hs 25 0 rest (by norm_num)

theorem header_nonack_counts_retries_witness :
    "RTT_ACK" ≠ "HEADER_ACK" ∧
      headerHandshake 0 (List.replicate 25 (HdrEvent.dgram "RTT_ACK") ++ []) = some false :=
  ⟨by decide, (header_nonack_counts_retries "RTT_ACK" (by decide)).2 []⟩

/-- Claim C4 (amended): the code tests remaining < 50 before remaining < 25,
so the 200ms·0.15 tier is unreachable; a state with remaining < 25 outside
the final push gets max(200ms·0.2, T·0.4), and the final-push case
overrides everything. -/
theorem timeout_scaling_amended (remaining progress dyn : ℚ) :
    scaleTimeout remaining progress dyn =
      if remaining < 20 ∧ 75 < progress then TIMEOUTQ * (1 / 10)
      else if remaining < 50 then max (TIMEOUTQ * (2 / 10)) (dyn * (4 / 10))
      else dyn := by
  unfold scaleTimeout
  by_cases h1 : remaining < 20 ∧ 75 < progress
  · simp [h1]
  · simp only [if_neg h1]
    by_cases h2 : remaining < 50
    · simp [h2]
    · have h3 : ¬ remaining < 25 := fun h => h2 (lt_trans h (by norm_num))
      simp [h2, h3]

/-- Claim C4 (counterexample): at remaining = 24, progress = 50 and
backoff-derived timeout 200 ms, the code yields max(40ms, 80ms) = 80 ms,
not the 30 ms = 200ms·0.15 that the specification's ordering demands. -/
theorem timeout_scaling_counterexample :
    scaleTimeout 24 50 TIMEOUTQ = TIMEOUTQ * (4 / 10) ∧
    ¬ scaleTimeout 24 50 TIMEOUTQ = TIMEOUTQ * (15 / 100) ∧
    scaleTimeoutSpec 24 50 TIMEOUTQ = TIMEOUTQ * (15 / 100) := by
  refine ⟨?_, ?_, ?_⟩ <;> norm_num [scaleTimeout, scaleTimeoutSpec, TIMEOUTQ, max_def]

/-- Claim C9 (amended): on a hard socket reset the receiver finalizes iff
total_packets > 0 and expected_seq is strictly greater than 0.9 of
total_packets; otherwise the state is unchanged. -/
theorem reset_completion_amended (t e : ℕ) (st : RecvSt) :
    (resetComplete t e = true ↔ (0 < t ∧ ((9 : ℚ) / 10) * (t : ℚ) < (e : ℚ))) ∧
    onReset st =
      if resetComplete st.total st.expected then { st with complete := true } else st := by
  constructor
  · have key : (((9 : ℚ) / 10) * (t : ℚ) < (e : ℚ)) ↔ 9 * t < 10 * e := by
      rw [div_mul_eq_mul_div, div_lt_iff (by norm_num : (0 : ℚ) < 10)]
      have hc1 : ((9 * t : ℕ) : ℚ) = 9 * (t : ℚ) := by push_cast; ring
      have hc2 : ((10 * e : ℕ) : ℚ) = (e : ℚ) * 10 := by push_cast; ring
      rw [← hc1, ← hc2]
      exact Nat.cast_lt
    rw [resetComplete, decide_eq_true_iff]
    exact and_congr_right fun _ => key.symm
  · rfl

/-- Claim C9 (counterexample): with total_packets = 10 and expected_seq = 9
we have expected_seq ≥ 0.9·total_packets, yet the code does not treat the
transfer as complete, because its comparison is strict. -/
theorem reset_completion_counterexample :
    resetComplete 10 9 = false ∧ 9 * 10 ≤ 10 * 9 ∧
      onReset ⟨9, ∅, [], [], 10, false⟩ = ⟨9, ∅, [], [], 10, false⟩ := by
  refine ⟨by decide, by norm_num, by decide⟩

/-- Claim C7 (amended): a packet whose total field is 0 or above 100000 is
dropped only when the size-derived expectation E is 0; whenever E > 0 the
code substitutes total := E with no upper check on E. While total_packets
is unbound, the sanitized total binds it, replaced by E exactly when
2·|total − E| > E and 0 < E < 100000. -/
theorem total_sanitization_amended (E tp pt0 : ℕ) :
    (processTotal E tp pt0 = none ↔ ((100000 < pt0 ∨ pt0 = 0) ∧ E = 0)) ∧
    ((100000 < pt0 ∨ pt0 = 0) → 0 < E →
      processTotal E tp pt0 = some (E, if tp = 0 then E else tp)) ∧
    (¬ (100000 < pt0 ∨ pt0 = 0) →
      processTotal E tp pt0 =
        some (pt0,
          if tp = 0 then
            (if E < 2 * ((pt0 : ℤ) - (E : ℤ)).natAbs ∧ 0 < E ∧ E < 100000 then E
             else pt0)
          else tp)) := by
  refine ⟨?_, ?_, ?_⟩
  · by_cases hb : (100000 < pt0 ∨ pt0 = 0) ∧ E = 0
    · rw [processTotal, if_pos hb]
      simp [hb]
    · rw [processTotal, if_neg hb]
      simp [hb]
  · intro hbad hE
    have hnb : ¬ ((100000 < pt0 ∨ pt0 = 0) ∧ E = 0) := fun hc => by omega
    simp only [processTotal, if_neg hnb, if_pos hbad, ite_self]
  · intro hbad
    have hnb : ¬ ((100000 < pt0 ∨ pt0 = 0) ∧ E = 0) := fun hc => hbad hc.1
    simp only [processTotal, if_neg hnb, if_neg hbad]

/-- Claim C7 (counterexample): with a zero total field and size-derived
expectation E = 150000, which is not inside (0, 100000), the claim demands a
drop, but the code substitutes total := 150000 and binds it. -/
theorem total_sanitization_counterexample :
    processTotal 150000 0 0 = some (150000, 150000) ∧ ¬ (150000 < 100000) := by
  constructor
  · unfold processTotal
    norm_num
  · norm_num

theorem total_sanitization_witness :
    (100000 < 0 ∨ (0 : ℕ) = 0) ∧ 0 < 1 ∧
      processTotal 1 0 0 = some (1, if (0 : ℕ) = 0 then 1 else 0) :=
  ⟨Or.inr rfl, by norm_num,
    (total_sanitization_amended 1 0 0).2.1 (Or.inr rfl) (by norm_num)⟩

/-- Claim C3 (amended): when the receiver recognizes the termination marker
it sends the termination ACK with value total_packets 5 times with a 10 ms
per-send delay in standard mode and 15 times with a 50 ms delay in high_rtt
mode (the receiver has no extreme_rtt mode), and transitions to DONE. -/
theorem termination_ack_repeats (E : ℕ) (high : Bool) (st : RecvSt) (seq : ℕ)
    (chunk : List ℕ) (h1 : st.total = seq) (h3 : 0 < seq) (h4 : seq ≤ 100000) :
    recvCore E high st seq seq chunk =
      ({ st with complete := true }, List.replicate (receiverTermRepeat high) seq) ∧
    receiverTermRepeat high = (if high then 15 else 5) ∧
    receiverTermDelayMs high = (if high then 50 else 10) := by
  refine ⟨?_, rfl, rfl⟩
  have hpt : processTotal E st.total seq = some (seq, seq) := by
    unfold processTotal
    have hgood : ¬ (100000 < seq ∨ seq = 0) := by
      rintro (hb | hb) <;> omega
    rw [if_neg (by simp [hgood])]
    simp only [if_neg hgood]
    rw [h1, if_neg (by omega : ¬ seq = 0)]
  rw [recvCore, hpt, ← h1]
  simp

theorem termination_ack_repeats_witness :
    (⟨1, {0}, [], [(0, [7])], 1, false⟩ : RecvSt).total = 1 ∧ 0 < 1 ∧ 1 ≤ 100000 ∧
      recvCore 1 false ⟨1, {0}, [], [(0, [7])], 1, false⟩ 1 1 [] =
        (⟨1, {0}, [], [(0, [7])], 1, true⟩,
          List.replicate (receiverTermRepeat false) 1) :=
  ⟨rfl, by norm_num, by norm_num,
    (termination_ack_repeats 1 false ⟨1, {0}, [], [(0, [7])], 1, false⟩ 1 [] rfl
      (by norm_num) (by norm_num)).1⟩

/-- Claim C3 (counterexample): in standard mode the receiver emits the
termination ACK 5 times, not the 3 times the claim states. -/
theorem termination_ack_count_counterexample :
    (recvCore 1 false ⟨1, {0}, [], [(0, [7])], 1, false⟩ 1 1 []).2.length = 5 ∧
    ¬ (recvCore 1 false ⟨1, {0}, [], [(0, [7])], 1, false⟩ 1 1 []).2.length = 3 := by
  constructor <;> decide

/-- Claim C1: on a zero-byte file the sender computes N = 0, sends no data
packets and emits the termination marker with seq = 0 and total = 0; but the
receiver, whose size-derived expectation is also 0, drops that marker in the
total sanity check, so it never acknowledges it and never reaches DONE. -/
theorem zero_byte_termination_dropped :
    chunksOf [] = [] ∧
    expectedPackets 0 = 0 ∧
    (∀ win fuel : ℕ,
      sendBurst win (chunksOf ([] : List ℕ)).length fuel ⟨0, 0, ∅⟩ = ⟨0, 0, ∅⟩) ∧
    termPacket (chunksOf ([] : List ℕ)).length = encodeData 0 0 [] ∧
    recvDgram (expectedPackets 0) false ⟨0, ∅, [], [], 0, false⟩ (encodeData 0 0 []) =
      (⟨0, ∅, [], [], 0, false⟩, []) := by
  have hN : (chunksOf ([] : List ℕ)).length = 0 := by
    rw [chunksOf]
    simp
  refine ⟨by rw [chunksOf]; simp, rfl, ?_, by rw [hN]; rfl, by decide⟩
  intro win fuel
  cases fuel with
  | zero => rfl
  | succ f => simp [sendBurst, hN]

theorem mem_aerase {k : ℕ} {kv : ℕ × List ℕ} :
    ∀ {l : List (ℕ × List ℕ)}, kv ∈ aerase k l → kv ∈ l
  | [], h => by simp [aerase] at h
  | (k2, v) :: rest, h => by
    by_cases hk : k2 = k
    · rw [aerase, if_pos hk] at h
      exact List.mem_cons_of_mem _ h
    · rw [aerase, if_neg hk] at h
      rcases List.mem_cons.mp h with h1 | h1
      · exact List.mem_cons.mpr (Or.inl h1)
      · exact List.mem_cons_of_mem _ (mem_aerase h1)

theorem keys_aerase_sublist (k : ℕ) :
    ∀ l : List (ℕ × List ℕ), ((aerase k l).map Prod.fst).Sublist (l.map Prod.fst)
  | [] => by simp [aerase]
  | (k2, v) :: rest => by
    by_cases hk : k2 = k
    · rw [aerase, if_pos hk]
      simp only [List.map_cons]
      exact List.sublist_cons_self _ _
    · rw [aerase, if_neg hk]
      simp only [List.map_cons]
      exact (keys_aerase_sublist k rest).cons₂ _

theorem nodup_keys_aerase {k : ℕ} {l : List (ℕ × List ℕ)}
    (h : (l.map Prod.fst).Nodup) : ((aerase k l).map Prod.fst).Nodup :=
  (keys_aerase_sublist k l).nodup h

theorem not_mem_keys_aerase {k : ℕ} :
    ∀ {l : List (ℕ × List ℕ)}, (l.map Prod.fst).Nodup → k ∉ (aerase k l).map Prod.fst
  | [], _ => by simp [aerase]
  | (k2, v) :: rest, h => by
    have hnd := h
    rw [List.map_cons, List.nodup_cons] at hnd
    by_cases hk : k2 = k
    · rw [aerase, if_pos hk]
      rw [← hk]
      exact hnd.1
    · rw [aerase, if_neg hk]
      simp only [List.map_cons, List.mem_cons]
      rintro (h1 | h1)
      · exact hk h1.symm
      · exact not_mem_keys_aerase hnd.2 h1

theorem alookup_mem {k : ℕ} {v : List ℕ} :
    ∀ {l : List (ℕ × List ℕ)}, alookup k l = some v → (k, v) ∈ l
  | [], h => by simp [alookup] at h
  | (k2, w) :: rest, h => by
    by_cases hk : k2 = k
    · rw [alookup, if_pos hk] at h
      rw [← hk, Option.some_inj.mp h]
      exact List.mem_cons_self _ _
    · rw [alookup, if_neg hk] at h
      exact List.mem_cons_of_mem _ (alookup_mem h)

theorem alookup_none_keys {k : ℕ} :
    ∀ {l : List (ℕ × List ℕ)}, alookup k l = none → k ∉ l.map Prod.fst
  | [], _ => by simp
  | (k2, w) :: rest, h => by
    by_cases hk : k2 = k
    · rw [alookup, if_pos hk] at h
      cases h
    · rw [alookup, if_neg hk] at h
      simp only [List.map_cons, List.mem_cons]
      rintro (h1 | h1)
      · exact hk h1.symm
      · exact alookup_none_keys h h1

theorem drain_expected_le (e : ℕ) (buf : List (ℕ × List ℕ)) (dl : Finset ℕ)
    (ws : List (ℕ × List ℕ)) : e ≤ (drain e buf dl ws).1 := by
  by_cases h : (alookup e buf).isSome
  · rw [drain, dif_pos h]
    exact le_trans (Nat.le_succ e)
      (drain_expected_le (e + 1) (aerase e buf) (insert e dl)
        (ws ++ [(e, (alookup e buf).getD [])]))
  · rw [drain, dif_neg h]
termination_by buf.length
decreasing_by
  obtain ⟨v, hv⟩ := Option.isSome_iff_exists.mp h
  exact aerase_length_lt hv

theorem drain_spec (pay : ℕ → List ℕ) (T : ℕ) :
    ∀ (n : ℕ) (buf : List (ℕ × List ℕ)), buf.length ≤ n →
      ∀ (e : ℕ) (dl : Finset ℕ) (ws : List (ℕ × List ℕ)),
      (∀ kv ∈ buf, kv.2 = pay kv.1 ∧ e ≤ kv.1 ∧ kv.1 < T) →
      (buf.map Prod.fst).Nodup →
      ws = (List.range e).map (fun i => (i, pay i)) →
      e ≤ T →
      e ≤ (drain e buf dl ws).1 ∧
      (drain e buf dl ws).1 ≤ T ∧
      (drain e buf dl ws).2.2.2 =
        (List.range (drain e buf dl ws).1).map (fun i => (i, pay i)) ∧
      (∀ kv ∈ (drain e buf dl ws).2.1,
        kv.2 = pay kv.1 ∧ (drain e buf dl ws).1 < kv.1 ∧ kv.1 < T) ∧
      ((drain e buf dl ws).2.1.map Prod.fst).Nodup := by
  intro n
  induction n with
  | zero =>
    intro buf hlen e dl ws hbuf hnd hws heT
    have hb0 : buf = [] := List.length_eq_zero.mp (Nat.le_zero.mp hlen)
    subst hb0
    have hnone : ¬ (alookup e ([] : List (ℕ × List ℕ))).isSome := by simp [alookup]
    rw [drain, dif_neg hnone]
    exact ⟨le_refl e, heT, hws, by simp, by simp⟩
  | succ n ih =>
    intro buf hlen e dl ws hbuf hnd hws heT
    by_cases hs : (alookup e buf).isSome
    · obtain ⟨p, hp⟩ := Option.isSome_iff_exists.mp hs
      have hget : (alookup e buf).getD [] = p := by rw [hp]; rfl
      have hmem : (e, p) ∈ buf := alookup_mem hp
      have hfacts := hbuf (e, p) hmem
      have hpay : p = pay e := hfacts.1
      have heltT : e < T := hfacts.2.2
      have hlen2 : (aerase e buf).length ≤ n := by
        have := aerase_length_lt hp
        omega
      have hbuf2 : ∀ kv ∈ aerase e buf, kv.2 = pay kv.1 ∧ e + 1 ≤ kv.1 ∧ kv.1 < T := by
        intro kv hkv
        have h1 := hbuf kv (mem_aerase hkv)
        have h2 : kv.1 ≠ e := fun he =>
          not_mem_keys_aerase hnd (he ▸ List.mem_map_of_mem Prod.fst hkv)
        exact ⟨h1.1, by omega, h1.2.2⟩
      have hnd2 : ((aerase e buf).map Prod.fst).Nodup := nodup_keys_aerase hnd
      have hws2 : ws ++ [(e, (alookup e buf).getD [])] =
          (List.range (e + 1)).map (fun i => (i, pay i)) := by
        rw [hget, hpay, hws, List.range_succ]
        simp
      have hrec := ih (aerase e buf) hlen2 (e + 1) (insert e dl)
        (ws ++ [(e, (alookup e buf).getD [])]) hbuf2 hnd2 hws2 (by omega)
      rw [drain, dif_pos hs]
      exact ⟨le_trans (Nat.le_succ e) hrec.1, hrec.2.1, hrec.2.2.1, hrec.2.2.2.1,
        hrec.2.2.2.2⟩
    · rw [drain, dif_neg hs]
      have hnone : alookup e buf = none := Option.not_isSome_iff_eq_none.mp hs
      refine ⟨le_refl e, heT, hws, ?_, hnd⟩
      intro kv hkv
      have h1 := hbuf kv hkv
      have h2 : kv.1 ≠ e := fun he =>
        alookup_none_keys hnone (he ▸ List.mem_map_of_mem Prod.fst hkv)
      exact ⟨h1.1, by omega, h1.2.2⟩

theorem processTotal_some {E tp pt0 pt total : ℕ}
    (h : processTotal E tp pt0 = some (pt, total)) :
    0 < pt ∧ (tp = 0 → 0 < total) ∧ (tp ≠ 0 → total = tp) := by
  unfold processTotal at h
  by_cases hb : (100000 < pt0 ∨ pt0 = 0) ∧ E = 0
  · rw [if_pos hb] at h
    cases h
  · rw [if_neg hb] at h
    simp only [Option.some.injEq, Prod.mk.injEq] at h
    obtain ⟨hpt, htot⟩ := h
    rw [hpt] at htot
    have hptpos : 0 < pt := by
      by_cases hbad : 100000 < pt0 ∨ pt0 = 0
      · rw [if_pos hbad] at hpt
        omega
      · rw [if_neg hbad] at hpt
        omega
    refine ⟨hptpos, fun htp => ?_, fun htp => ?_⟩
    · rw [if_pos htp] at htot
      by_cases hcond : E < 2 * ((pt : ℤ) - (E : ℤ)).natAbs ∧ 0 < E ∧ E < 100000
      · rw [if_pos hcond] at htot
        omega
      · rw [if_neg hcond] at htot
        omega
    · rw [if_neg htp] at htot
      omega

theorem RInv_step (pay : ℕ → List ℕ) (E : ℕ) (high : Bool) (st : RecvSt) (seq pt0 : ℕ)
    (h : RInv pay st) : RInv pay (recvCore E high st seq pt0 (pay seq)).1 := by
  obtain ⟨hw, hb, hnd, hz, het⟩ := h
  unfold recvCore
  split
  · exact ⟨hw, hb, hnd, hz, het⟩
  · next pt total heq =>
    have hfacts := processTotal_some heq
    have htotpos : 0 < total := by
      by_cases h0 : st.total = 0
      · exact hfacts.2.1 h0
      · have := hfacts.2.2 h0
        omega
    have hbuf2 : ∀ kv ∈ st.buffer,
        kv.2 = pay kv.1 ∧ st.expected < kv.1 ∧ kv.1 < total := by
      intro kv hkv
      by_cases h0 : st.total = 0
      · rw [(hz h0).2] at hkv
        cases hkv
      · have h1 := hb kv hkv
        exact ⟨h1.1, h1.2.1, by rw [hfacts.2.2 h0]; exact h1.2.2⟩
    have hexp_le : st.expected ≤ total := by
      by_cases h0 : st.total = 0
      · rw [(hz h0).1]
        omega
      · rw [hfacts.2.2 h0]
        exact het (by omega)
    split_ifs with h1 h2 h3 h4 h5
    · exact ⟨hw, hbuf2, hnd, fun hc => absurd hc (Nat.pos_iff_ne_zero.mp htotpos), fun _ => hexp_le⟩
    · exact ⟨hw, hbuf2, hnd, fun hc => absurd hc (Nat.pos_iff_ne_zero.mp htotpos), fun _ => hexp_le⟩
    · exact ⟨hw, hbuf2, hnd, fun hc => absurd hc (Nat.pos_iff_ne_zero.mp htotpos), fun _ => hexp_le⟩
    · have hseq_lt : seq < total := by omega
      have hbuf3 : ∀ kv ∈ st.buffer,
          kv.2 = pay kv.1 ∧ st.expected + 1 ≤ kv.1 ∧ kv.1 < total := by
        intro kv hkv
        have h6 := hbuf2 kv hkv
        exact ⟨h6.1, by omega, h6.2.2⟩
      have hws2 : st.writes ++ [(seq, pay seq)] =
          (List.range (st.expected + 1)).map (fun i => (i, pay i)) := by
        rw [hw, h4, List.range_succ]
        simp
      have hr := drain_spec pay total st.buffer.length st.buffer (le_refl _)
        (st.expected + 1) (insert seq st.delivered) (st.writes ++ [(seq, pay seq)])
        hbuf3 hnd hws2 (by omega)
      exact ⟨hr.2.2.1, fun kv hkv => hr.2.2.2.1 kv hkv, hr.2.2.2.2,
        fun hc => absurd hc (Nat.pos_iff_ne_zero.mp htotpos), fun _ => hr.2.1⟩
    · have hseq_lt : seq < total := by omega
      refine ⟨hw, ?_, ?_, fun hc => absurd hc (Nat.pos_iff_ne_zero.mp htotpos), fun _ => hexp_le⟩
      · intro kv hkv
        simp only [ainsert] at hkv
        rcases List.mem_cons.mp hkv with hkv1 | hkv1
        · rw [hkv1]
          exact ⟨rfl, h5, hseq_lt⟩
        · exact hbuf2 kv (mem_aerase hkv1)
      · simp only [ainsert, List.map_cons, List.nodup_cons]
        exact ⟨not_mem_keys_aerase hnd, nodup_keys_aerase hnd⟩
    · exact ⟨hw, hbuf2, hnd, fun hc => absurd hc (Nat.pos_iff_ne_zero.mp htotpos), fun _ => hexp_le⟩

theorem recvCore_expected_le (E : ℕ) (high : Bool) (st : RecvSt) (seq pt0 : ℕ)
    (chunk : List ℕ) : st.expected ≤ (recvCore E high st seq pt0 chunk).1.expected := by
  unfold recvCore
  split
  · exact Nat.le_refl _
  · split_ifs
    · exact Nat.le_refl _
    · exact Nat.le_refl _
    · exact Nat.le_refl _
    · exact le_trans (Nat.le_succ _) (drain_expected_le (st.expected + 1) st.buffer _ _)
    · exact Nat.le_refl _
    · exact Nat.le_refl _

theorem recvDgram_expected_le (E : ℕ) (high : Bool) (st : RecvSt) (data : List ℕ) :
    st.expected ≤ (recvDgram E high st data).1.expected := by
  rw [recvDgram]
  split
  · exact Nat.le_refl _
  · exact recvCore_expected_le E high st _ _ _

theorem recvDgram_encode (E : ℕ) (high : Bool) (st : RecvSt) (seq total : ℕ)
    (p : List ℕ) (hs : seq < 2 ^ 32) (ht : total < 2 ^ 32) :
    recvDgram E high st (encodeData seq total p) = recvCore E high st seq total p := by
  have hlen : (encodeData seq total p).length = 8 + p.length := encodeData_length seq total p
  rw [recvDgram, if_neg (by omega), encodeData_take4, encodeData_drop4_take4,
    encodeData_drop8, fromBE4_toBE4 hs, fromBE4_toBE4 ht]

theorem RReach_inv (E : ℕ) (pay : ℕ → List ℕ) (st : RecvSt) (h : RReach E pay st) :
    RInv pay st := by
  induction h with
  | init =>
    exact ⟨rfl, by simp, by simp, fun _ => ⟨rfl, rfl⟩, fun _ => Nat.zero_le _⟩
  | step st high seq total hs ht hst ih =>
    rw [recvDgram_encode E high st seq total (pay seq) hs ht]
    exact RInv_step pay E high st seq total ih

theorem sum_map_range_succ (f : ℕ → ℕ) (n : ℕ) :
    ((List.range (n + 1)).map f).sum = ((List.range n).map f).sum + f n := by
  rw [List.range_succ, List.map_append, List.sum_append]
  simp

theorem sum_map_range_lt (f : ℕ → ℕ) (t : ℕ) (hpos : ∀ i, i < t → 0 < f i) :
    ∀ e, e < t → ((List.range e).map f).sum < ((List.range t).map f).sum := by
  induction t with
  | zero =>
    intro e he
    exact absurd he (Nat.not_lt_zero e)
  | succ t ih =>
    intro e he
    rw [sum_map_range_succ]
    by_cases h : e < t
    · exact lt_of_lt_of_le (ih (fun i hi => hpos i (Nat.lt_succ_of_lt hi)) e h)
        (Nat.le_add_right _ _)
    · have he2 : e = t := by omega
      subst he2
      have := hpos e (Nat.lt_succ_self e)
      omega

/-- Claim C5: at every reachable point of the receiver's streaming loop,
for a session with a fixed sender payload map, the output file holds exactly
the payloads of sequence numbers 0..expected_seq-1, each written exactly
once and in strict chunk-index order; expected_seq never decreases on any
datagram; and when the written byte count reaches the whole file's byte
count (success of the size/digest verification), expected_seq has reached
total_packets. -/
theorem receiver_write_invariant (E : ℕ) (pay : ℕ → List ℕ) (st : RecvSt)
    (hr : RReach E pay st) :
    st.writes = (List.range st.expected).map (fun i => (i, pay i)) ∧
    (∀ (high : Bool) (data : List ℕ),
      st.expected ≤ (recvDgram E high st data).1.expected) ∧
    ((∀ i, i < st.total → pay i ≠ []) →
      (st.writes.map (fun w => w.2.length)).sum =
        ((List.range st.total).map (fun i => (pay i).length)).sum →
      0 < st.total → st.expected = st.total) := by
  obtain ⟨hw, hb, hnd, hz, het⟩ := RReach_inv E pay st hr
  refine ⟨hw, fun high data => recvDgram_expected_le E high st data, ?_⟩
  intro hpos hsum htot
  have hle : st.expected ≤ st.total := het htot
  rcases Nat.lt_or_ge st.expected st.total with hlt | hge
  · exfalso
    have hkey : (st.writes.map (fun w => w.2.length)).sum =
        ((List.range st.expected).map (fun i => (pay i).length)).sum := by
      rw [hw, List.map_map]
      rfl
    have hstrict := sum_map_range_lt (fun i => (pay i).length) st.total
      (fun i hi => List.length_pos.mpr (hpos i hi)) st.expected hlt
    omega
  · omega

theorem receiver_write_invariant_witness :
    RReach 1 (fun _ => [7])
      (recvDgram 1 false ⟨0, ∅, [], [], 0, false⟩ (encodeData 0 1 [7])).1 ∧
    (recvDgram 1 false ⟨0, ∅, [], [], 0, false⟩ (encodeData 0 1 [7])).1.expected =
      (recvDgram 1 false ⟨0, ∅, [], [], 0, false⟩ (encodeData 0 1 [7])).1.total := by
  have hreach : RReach 1 (fun _ => [7])
      (recvDgram 1 false ⟨0, ∅, [], [], 0, false⟩ (encodeData 0 1 [7])).1 :=
    RReach.step ⟨0, ∅, [], [], 0, false⟩ false 0 1 (by norm_num) (by norm_num) RReach.init
  have hnone : ¬ (alookup 1 ([] : List (ℕ × List ℕ))).isSome := by simp [alookup]
  have hdr : drain 1 [] (insert 0 (∅ : Finset ℕ)) [(0, [7])] =
      (1, [], insert 0 ∅, [(0, [7])]) := by
    rw [drain, dif_neg hnone]
  have hmain := receiver_write_invariant 1 (fun _ => [7]) _ hreach
  have ht : (recvDgram 1 false ⟨0, ∅, [], [], 0, false⟩ (encodeData 0 1 [7])).1.total =
      1 := rfl
  have hwr : (recvDgram 1 false ⟨0, ∅, [], [], 0, false⟩ (encodeData 0 1 [7])).1.writes =
      (drain 1 [] (insert 0 (∅ : Finset ℕ)) [(0, [7])]).2.2.2 := rfl
  refine ⟨hreach, hmain.2.2 (fun i hi => by simp) ?_ ?_⟩
  · rw [hwr, hdr, ht]
    simp
  · rw [ht]
    norm_num

theorem advanceBase_ge (N : ℕ) (w : Finset ℕ) (b : ℕ) : b ≤ advanceBase N w b := by
  by_cases h : b < N ∧ b ∉ w
  · rw [advanceBase, if_pos h]
    exact le_trans (Nat.le_succ b) (advanceBase_ge N w (b + 1))
  · rw [advanceBase, if_neg h]
termination_by N - b
decreasing_by
  obtain ⟨h1, h2⟩ := h
  omega

theorem advanceBase_le (N : ℕ) (w : Finset ℕ) (b : ℕ) (hb : b ≤ N) :
    advanceBase N w b ≤ N := by
  by_cases h : b < N ∧ b ∉ w
  · rw [advanceBase, if_pos h]
    exact advanceBase_le N w (b + 1) (by omega)
  · rw [advanceBase, if_neg h]
    exact hb
termination_by N - b
decreasing_by
  obtain ⟨h1, h2⟩ := h
  omega

theorem advanceBase_min (N : ℕ) (w : Finset ℕ) (b : ℕ) (hb : b ≤ N)
    (hw : ∀ s ∈ w, b ≤ s ∧ s < N) :
    advanceBase N w b = if h : w.Nonempty then w.min' h else N := by
  by_cases hc : b < N ∧ b ∉ w
  · rw [advanceBase, if_pos hc]
    have hw2 : ∀ s ∈ w, b + 1 ≤ s ∧ s < N := by
      intro s hs
      have h1 := hw s hs
      have h2 : b ≠ s := fun he => hc.2 (he ▸ hs)
      exact ⟨by omega, h1.2⟩
    exact advanceBase_min N w (b + 1) (by omega) hw2
  · rw [advanceBase, if_neg hc]
    by_cases hbw : b ∈ w
    · have hne : w.Nonempty := ⟨b, hbw⟩
      rw [dif_pos hne]
      exact le_antisymm (Finset.le_min' w hne b fun s hs => (hw s hs).1)
        (Finset.min'_le w b hbw)
    · have hbN : b = N := by
        rcases not_and_or.mp hc with h1 | h1
        · omega
        · exact absurd (not_not.mp h1) hbw
      have hemp : ¬ w.Nonempty := by
        rintro ⟨s, hs⟩
        have := hw s hs
        omega
      rw [dif_neg hemp]
      exact hbN
termination_by N - b
decreasing_by
  obtain ⟨h1, h2⟩ := hc
  omega

theorem sendBurst_inv (win N : ℕ) :
    ∀ (fuel : ℕ) (st : SenderSt), SInv N st → SInv N (sendBurst win N fuel st)
  | 0, st, h => h
  | fuel + 1, st, h => by
    rw [sendBurst]
    split_ifs with hc
    · obtain ⟨hc1, hc2⟩ := hc
      obtain ⟨h1, h2, h3⟩ := h
      apply sendBurst_inv win N fuel
      refine ⟨?_, ?_, ?_⟩
      · show st.base ≤ st.next + 1
        omega
      · show st.next + 1 ≤ N
        omega
      · intro s hs
        have hs2 : s ∈ insert st.next st.window := hs
        rcases Finset.mem_insert.mp hs2 with hs1 | hs1
        · subst hs1
          exact ⟨h1, Nat.lt_succ_self _⟩
        · have h4 := h3 s hs1
          exact ⟨h4.1, Nat.lt_succ_of_lt h4.2⟩
    · exact h

theorem sendBurst_card (win N : ℕ) :
    ∀ (fuel : ℕ) (st : SenderSt), (∀ s ∈ st.window, s < st.next) →
      (sendBurst win N fuel st).next < N →
      min win (st.window.card + fuel) ≤ (sendBurst win N fuel st).window.card
  | 0, st, hw, hn => by
    show min win (st.window.card + 0) ≤ st.window.card
    rw [Nat.add_zero]
    exact min_le_right win st.window.card
  | fuel + 1, st, hw, hn => by
    rw [sendBurst] at hn ⊢
    split_ifs at hn ⊢ with hc
    · have hnotmem : st.next ∉ st.window := fun hmem => absurd (hw _ hmem) (lt_irrefl _)
      have hcard : (insert st.next st.window).card = st.window.card + 1 :=
        Finset.card_insert_of_not_mem hnotmem
      have hw2 : ∀ s ∈ (⟨st.base, st.next + 1, insert st.next st.window⟩ : SenderSt).window,
          s < (⟨st.base, st.next + 1, insert st.next st.window⟩ : SenderSt).next := by
        intro s hs
        have hs2 : s ∈ insert st.next st.window := hs
        show s < st.next + 1
        rcases Finset.mem_insert.mp hs2 with hs1 | hs1
        · omega
        · have := hw s hs1
          omega
      have hrec := sendBurst_card win N fuel
        ⟨st.base, st.next + 1, insert st.next st.window⟩ hw2 hn
      have hcard2 : (⟨st.base, st.next + 1, insert st.next st.window⟩ : SenderSt).window.card
          = st.window.card + 1 := hcard
      rw [hcard2] at hrec
      omega
    · have hd : ¬ st.window.card < win ∨ ¬ st.next < N := not_and_or.mp hc
      omega

theorem extraSend_inv (N : ℕ) :
    ∀ (k : ℕ) (st : SenderSt), SInv N st → SInv N (extraSend N k st)
  | 0, st, h => h
  | k + 1, st, h => by
    rw [extraSend]
    split_ifs with hc
    · obtain ⟨h1, h2, h3⟩ := h
      apply extraSend_inv N k
      refine ⟨?_, ?_, ?_⟩
      · show st.base ≤ st.next + 1
        omega
      · show st.next + 1 ≤ N
        omega
      · intro s hs
        have hs2 : s ∈ insert st.next st.window := hs
        rcases Finset.mem_insert.mp hs2 with hs1 | hs1
        · subst hs1
          exact ⟨h1, Nat.lt_succ_self _⟩
        · have h4 := h3 s hs1
          exact ⟨h4.1, Nat.lt_succ_of_lt h4.2⟩
    · exact extraSend_inv N k st h

theorem extraSend_base (N : ℕ) :
    ∀ (k : ℕ) (st : SenderSt), (extraSend N k st).base = st.base
  | 0, st => rfl
  | k + 1, st => by
    rw [extraSend]
    split_ifs with hc
    · rw [extraSend_base N k]
    · rw [extraSend_base N k]

theorem extraSend_window (N : ℕ) :
    ∀ (k : ℕ) (st : SenderSt) (s : ℕ), s ∈ (extraSend N k st).window →
      s ∈ st.window ∨ st.next ≤ s
  | 0, st, s, hs => Or.inl hs
  | k + 1, st, s, hs => by
    rw [extraSend] at hs
    split_ifs at hs with hc
    · rcases extraSend_window N k _ s hs with h1 | h1
      · rcases Finset.mem_insert.mp h1 with h2 | h2
        · exact Or.inr (le_of_eq h2.symm)
        · exact Or.inl h2
      · have h2 : st.next + 1 ≤ s := h1
        exact Or.inr (by omega)
    · exact extraSend_window N k st s hs

theorem ackEvent_not_mem (win N : ℕ) (t : Bool) (a : ℕ) (st : SenderSt)
    (h : a ∉ st.window) : ackEvent win N t a st = st := by
  rw [ackEvent, if_neg h]

theorem ackEvent_base_ge (win N : ℕ) (t : Bool) (a : ℕ) (st : SenderSt) :
    st.base ≤ (ackEvent win N t a st).base := by
  rw [ackEvent]
  split_ifs with h1 h2
  · rw [extraSend_base]
    exact advanceBase_ge N _ st.base
  · exact advanceBase_ge N _ st.base
  · exact le_refl _

theorem ackEvent_inv (win N : ℕ) (t : Bool) (a : ℕ) (st : SenderSt)
    (h : SInv N st) (hcard : st.next < N → 2 ≤ st.window.card) :
    SInv N (ackEvent win N t a st) := by
  obtain ⟨h1, h2, h3⟩ := h
  rw [ackEvent]
  by_cases hmem : a ∈ st.window
  · rw [if_pos hmem]
    have hw : ∀ s ∈ st.window.erase a, st.base ≤ s ∧ s < N := by
      intro s hs
      have h4 := h3 s (Finset.mem_of_mem_erase hs)
      exact ⟨h4.1, by omega⟩
    have hb2 : st.base ≤ N := le_trans h1 h2
    have hmin := advanceBase_min N (st.window.erase a) st.base hb2 hw
    have hinv1 : SInv N
        ⟨advanceBase N (st.window.erase a) st.base, st.next, st.window.erase a⟩ := by
      by_cases hnext : st.next < N
      · have hc2 : 2 ≤ st.window.card := hcard hnext
        have hne : (st.window.erase a).Nonempty := by
          apply Finset.card_pos.mp
          have := Finset.card_erase_of_mem hmem
          omega
        have hminmem := Finset.min'_mem _ hne
        have h5 := h3 _ (Finset.mem_of_mem_erase hminmem)
        refine ⟨?_, h2, ?_⟩
        · show advanceBase N (st.window.erase a) st.base ≤ st.next
          rw [hmin, dif_pos hne]
          exact le_of_lt h5.2
        · intro s hs
          have hs2 : s ∈ st.window.erase a := hs
          refine ⟨?_, (h3 s (Finset.mem_of_mem_erase hs2)).2⟩
          show advanceBase N (st.window.erase a) st.base ≤ s
          rw [hmin, dif_pos hne]
          exact Finset.min'_le _ s hs2
      · refine ⟨?_, h2, ?_⟩
        · show advanceBase N (st.window.erase a) st.base ≤ st.next
          have hle := advanceBase_le N (st.window.erase a) st.base hb2
          omega
        · intro s hs
          have hs2 : s ∈ st.window.erase a := hs
          by_cases hne : (st.window.erase a).Nonempty
          · refine ⟨?_, (h3 s (Finset.mem_of_mem_erase hs2)).2⟩
            show advanceBase N (st.window.erase a) st.base ≤ s
            rw [hmin, dif_pos hne]
            exact Finset.min'_le _ s hs2
          · exact absurd ⟨s, hs2⟩ hne
    split_ifs with hext
    · exact extraSend_inv N _ _ hinv1
    · exact hinv1
  · rw [if_neg hmem]
    exact ⟨h1, h2, h3⟩

theorem SReach_inv (win burst N : ℕ) (hwin : 2 ≤ win) (hburst : 2 ≤ burst)
    (st : SenderSt) (h : SReach win burst N st) : SInv N st := by
  induction h with
  | init => exact ⟨le_refl 0, Nat.zero_le N, by simp⟩
  | step st t ev hst ih =>
    have h1 : SInv N (sendBurst win N burst st) := sendBurst_inv win N burst st ih
    cases ev with
    | none => exact h1
    | some a =>
      apply ackEvent_inv win N t a _ h1
      intro hnext
      have hc := sendBurst_card win N burst st (fun s hs => (ih.2.2 s hs).2) hnext
      omega

/-- Claim C2: in every reachable state of the sender's streaming loop (with
the effective window and burst caps the code uses, both at least 2), the
invariant base ≤ next ≤ N holds and is preserved by every event, and when an
ACK removes a window entry the base advances exactly to the smallest
sequence number still in the window (or to N when it empties), never
reaching past next while unsent chunks remain. -/
theorem sender_window_invariant (win burst N : ℕ) (hwin : 2 ≤ win) (hburst : 2 ≤ burst)
    (st : SenderSt) (hr : SReach win burst N st) :
    (st.base ≤ st.next ∧ st.next ≤ N) ∧
    (∀ (t : Bool) (ev : Option ℕ),
      (senderIter win burst N t ev st).base ≤ (senderIter win burst N t ev st).next ∧
      (senderIter win burst N t ev st).next ≤ N) ∧
    (∀ a, a ∈ (sendBurst win N burst st).window →
      (advanceBase N ((sendBurst win N burst st).window.erase a)
          (sendBurst win N burst st).base =
        if h : ((sendBurst win N burst st).window.erase a).Nonempty
        then ((sendBurst win N burst st).window.erase a).min' h
        else N) ∧
      ((sendBurst win N burst st).next < N →
        advanceBase N ((sendBurst win N burst st).window.erase a)
            (sendBurst win N burst st).base < (sendBurst win N burst st).next)) := by
  have hinv := SReach_inv win burst N hwin hburst st hr
  refine ⟨⟨hinv.1, hinv.2.1⟩, ?_, ?_⟩
  · intro t ev
    have h2 := SReach_inv win burst N hwin hburst _ (SReach.step st t ev hr)
    exact ⟨h2.1, h2.2.1⟩
  · intro a ha
    have h1 : SInv N (sendBurst win N burst st) := sendBurst_inv win N burst st hinv
    obtain ⟨g1, g2, g3⟩ := h1
    have hw : ∀ s ∈ (sendBurst win N burst st).window.erase a,
        (sendBurst win N burst st).base ≤ s ∧ s < N := by
      intro s hs
      have h4 := g3 s (Finset.mem_of_mem_erase hs)
      exact ⟨h4.1, by omega⟩
    have hb2 : (sendBurst win N burst st).base ≤ N := le_trans g1 g2
    have hmin := advanceBase_min N _ _ hb2 hw
    refine ⟨hmin, fun hnext => ?_⟩
    have hcard := sendBurst_card win N burst st (fun s hs => (hinv.2.2 s hs).2) hnext
    have hne : ((sendBurst win N burst st).window.erase a).Nonempty := by
      apply Finset.card_pos.mp
      have := Finset.card_erase_of_mem ha
      omega
    rw [hmin, dif_pos hne]
    have hmem := Finset.min'_mem _ hne
    exact (g3 _ (Finset.mem_of_mem_erase hmem)).2

theorem sender_window_invariant_witness :
    2 ≤ 32 ∧ 2 ≤ 8 ∧ SReach 32 8 5 ⟨0, 0, ∅⟩ ∧
      ((⟨0, 0, ∅⟩ : SenderSt).base ≤ (⟨0, 0, ∅⟩ : SenderSt).next ∧
        (⟨0, 0, ∅⟩ : SenderSt).next ≤ 5) :=
  ⟨by norm_num, by norm_num, SReach.init,
    (sender_window_invariant 32 8 5 (by norm_num) (by norm_num) ⟨0, 0, ∅⟩ SReach.init).1⟩

/-- Claim C8: duplicate handling is idempotent on both endpoints: a data
packet whose seq is already delivered makes the receiver re-ACK seq without
changing any state; at the sender an ACK outside the window changes nothing,
the base never decreases on an ACK, and processing the same ACK twice equals
processing it once. -/
theorem duplicate_idempotence (E : ℕ) (high : Bool) (st : RecvSt) (seq : ℕ)
    (chunk : List ℕ) (win N : ℕ) (t : Bool) (a : ℕ) (sst : SenderSt) :
    (seq ∈ st.delivered → 0 < st.total → st.total ≤ 100000 → seq < st.total →
      recvCore E high st seq st.total chunk = (st, [seq])) ∧
    (a ∉ sst.window → ackEvent win N t a sst = sst) ∧
    sst.base ≤ (ackEvent win N t a sst).base ∧
    ((∀ s ∈ sst.window, s < sst.next) →
      ackEvent win N t a (ackEvent win N t a sst) = ackEvent win N t a sst) := by
  refine ⟨?_, ackEvent_not_mem win N t a sst, ackEvent_base_ge win N t a sst, ?_⟩
  · intro hdel htpos htle hlt
    have hpt : processTotal E st.total st.total = some (st.total, st.total) := by
      unfold processTotal
      have hgood : ¬ (100000 < st.total ∨ st.total = 0) := by
        rintro (hb | hb) <;> omega
      rw [if_neg (fun hc => hgood hc.1)]
      simp only [if_neg hgood]
      rw [if_neg (by omega : ¬ st.total = 0)]
    unfold recvCore
    split
    · next heq =>
      rw [hpt] at heq
      cases heq
    · next pt total heq =>
      rw [hpt] at heq
      injection heq with h12
      injection h12 with hA hB
      subst hA
      subst hB
      rw [if_neg (by omega : ¬ (seq = st.total ∧ st.total = st.total))]
      rw [if_neg (by omega : ¬ st.total ≤ seq)]
      rw [if_pos hdel]
  · intro hlt
    by_cases hmem : a ∈ sst.window
    · have ha_lt : a < sst.next := hlt a hmem
      have hnot : a ∉ (ackEvent win N t a sst).window := by
        rw [ackEvent, if_pos hmem]
        split_ifs with hext
        · intro hc
          rcases extraSend_window N _ _ a hc with h1 | h1
          · exact absurd h1 (Finset.not_mem_erase a _)
          · have h2 : sst.next ≤ a := h1
            omega
        · exact Finset.not_mem_erase a _
      exact ackEvent_not_mem win N t a _ hnot
    · rw [ackEvent_not_mem win N t a sst hmem]
      exact ackEvent_not_mem win N t a sst hmem

theorem duplicate_idempotence_witness :
    0 ∈ ({0} : Finset ℕ) ∧
      recvCore 1 false ⟨1, {0}, [], [(0, [7])], 1, false⟩ 0 1 [9] =
        (⟨1, {0}, [], [(0, [7])], 1, false⟩, [0]) ∧
      (∀ s ∈ ({0, 1} : Finset ℕ), s < 2) ∧
      ackEvent 32 5 false 0 (ackEvent 32 5 false 0 ⟨0, 2, {0, 1}⟩) =
        ackEvent 32 5 false 0 ⟨0, 2, {0, 1}⟩ := by
  refine ⟨by decide, ?_, by decide, ?_⟩
  · exact (duplicate_idempotence 1 false ⟨1, {0}, [], [(0, [7])], 1, false⟩ 0 [9]
      32 5 false 0 ⟨0, 2, {0, 1}⟩).1 (by decide) (by norm_num) (by norm_num) (by norm_num)
  · exact (duplicate_idempotence 1 false ⟨1, {0}, [], [(0, [7])], 1, false⟩ 0 [9]
      32 5 false 0 ⟨0, 2, {0, 1}⟩).2.2.2 (by decide)
